import Mathlib

/-!
Verification of the separate-chaining hash table of this repository:
`project/task5/hash_table.py` (sequential `HashTable`) and
`project/task6/MultiHash.py` (`ParallelHashTable`, same bucket logic plus
per-bucket locks).  Keys are modelled by an integer hash value plus an
identity tag, so that distinct keys may collide on their hash, exactly as
Python objects can.  Machine mutation is modelled by explicit state
passing; an operation that raises `KeyError` returns `none`.
-/

/-- A Python key, modelled by its hash value and an identity tag
(distinct keys may share a hash value). -/
structure Key where
  hashVal : Int
  tag : Nat
deriving DecidableEq, Repr

/-- `hash(key)` of Python, for our modelled keys. -/
def pyHash (k : Key) : Int := k.hashVal

/-- Python's `%` on integers: the result takes the sign of the divisor,
which is `Int.fmod`. -/
def pyMod (a b : Int) : Int := Int.fmod a b

/-- State of a `HashTable` (`hash_table.py`): the `volume` attribute, the
`size` counter and the list of buckets, each bucket an ordered list of
(key, value) pairs. -/
structure HashTable (α : Type) where
  volume : Int
  size : Int
  buckets : List (List (Key × α))
deriving DecidableEq, Repr

/-- `HashTable.__init__(volume)`: stores `volume` and `size = 0` and builds
`[[] for _ in range(volume)]` — note that the source performs no validation
of `volume` whatsoever (`range` of a non-positive argument is empty). -/
def mkHashTable (α : Type) (volume : Int) : HashTable α :=
  ⟨volume, 0, List.replicate volume.toNat []⟩

/-- `HashTable._hash(key)`: `hash(key) % self.volume`. -/
def HashTable.hashIdx {α : Type} (t : HashTable α) (k : Key) : Int :=
  pyMod (pyHash k) t.volume

/-- The scan of `__contains__` / the membership scan shared by all
operations: does the bucket contain an entry whose key equals `k`? -/
def bucketHas {α : Type} (k : Key) : List (Key × α) → Bool
  | [] => false
  | (k2, _) :: rest => if k2 = k then true else bucketHas k rest

/-- The scan of `__getitem__`: the value of the first entry whose key
equals `k`, or `none` (→ `KeyError`). -/
def bucketGet {α : Type} (k : Key) : List (Key × α) → Option α
  | [] => none
  | (k2, v2) :: rest => if k2 = k then some v2 else bucketGet k rest

/-- The overwrite scan of `__setitem__`: replace the first entry whose key
equals `k` by `(k, v)` (`bucket[i] = (key, value)`), or report `none` if no
entry matches (then the caller appends). -/
def bucketOverwrite {α : Type} (k : Key) (v : α) :
    List (Key × α) → Option (List (Key × α))
  | [] => none
  | (k2, v2) :: rest =>
      if k2 = k then some ((k, v) :: rest)
      else Option.map (fun r => (k2, v2) :: r) (bucketOverwrite k v rest)

/-- The removal scan of `__delitem__`: delete the first entry whose key
equals `k` (`del bucket[i]`), or `none` if no entry matches. -/
def bucketDelete {α : Type} (k : Key) :
    List (Key × α) → Option (List (Key × α))
  | [] => none
  | (k2, v2) :: rest =>
      if k2 = k then some rest
      else Option.map (fun r => (k2, v2) :: r) (bucketDelete k rest)

/-- `HashTable.__setitem__`: hash to a bucket, overwrite in place if the
key is present, else append the pair and increment `size`. -/
def HashTable.setitem {α : Type} (t : HashTable α) (k : Key) (v : α) :
    HashTable α :=
  match bucketOverwrite k v (t.buckets.getD (t.hashIdx k).toNat []) with
  | some b2 => { t with buckets := t.buckets.set (t.hashIdx k).toNat b2 }
  | none =>
      { t with
          buckets := t.buckets.set (t.hashIdx k).toNat
            ((t.buckets.getD (t.hashIdx k).toNat []) ++ [(k, v)]),
          size := t.size + 1 }

/-- `HashTable.__getitem__`: scan the key's bucket; `none` models the
raised `KeyError`. -/
def HashTable.getitem {α : Type} (t : HashTable α) (k : Key) : Option α :=
  bucketGet k (t.buckets.getD (t.hashIdx k).toNat [])

/-- `HashTable.__delitem__`: remove the entry and decrement `size`, or
`none` for the raised `KeyError` (the state is untouched in that case). -/
def HashTable.delitem {α : Type} (t : HashTable α) (k : Key) :
    Option (HashTable α) :=
  match bucketDelete k (t.buckets.getD (t.hashIdx k).toNat []) with
  | some b2 =>
      some { t with buckets := t.buckets.set (t.hashIdx k).toNat b2,
                    size := t.size - 1 }
  | none => none

/-- `HashTable.__contains__`: boolean scan of the key's bucket. -/
def HashTable.containsKey {α : Type} (t : HashTable α) (k : Key) : Bool :=
  bucketHas k (t.buckets.getD (t.hashIdx k).toNat [])

/-- `HashTable.__iter__`: yield the key of every entry, bucket by bucket,
in chain order within each bucket. -/
def HashTable.iterKeys {α : Type} (t : HashTable α) : List Key :=
  t.buckets.flatMap (fun b => b.map Prod.fst)

/-- `HashTable.__len__`: return the `size` counter. -/
def HashTable.lenT {α : Type} (t : HashTable α) : Int := t.size

/-- `ParallelHashTable.clear` (its sequential, quiescent effect): for each
`i in range(volume)` set `buckets[i][:] = []`, then set the counter to 0. -/
def HashTable.clearAll {α : Type} (t : HashTable α) : HashTable α :=
  { t with
      buckets :=
        (List.range t.volume.toNat).foldl (fun bs i => bs.set i []) t.buckets,
      size := 0 }

/-- A delete as a caller experiences it: on `KeyError` the caller's table
is unchanged (the source raises before any mutation). -/
def delRun (t : HashTable Nat) (k : Key) : HashTable Nat :=
  (t.delitem k).getD t

/-- A sequence of `set` calls. -/
def setMany (t : HashTable Nat) (ps : List (Key × Nat)) : HashTable Nat :=
  ps.foldl (fun a p => a.setitem p.1 p.2) t

/-- Sum of all bucket lengths (the quantity the `size` counter tracks). -/
def sumLens {α : Type} (bs : List (List (Key × α))) : Nat :=
  (bs.map List.length).sum

/-- Well-formedness of a table state: positive volume, exactly `volume`
buckets, `size` equal to the sum of bucket lengths, and every bucket
duplicate-free with each key stored in the bucket its hash selects. -/
def WF {α : Type} (t : HashTable α) : Prop :=
  0 < t.volume ∧
  t.buckets.length = t.volume.toNat ∧
  t.size = (sumLens t.buckets : Int) ∧
  ∀ i, i < t.buckets.length →
    ((t.buckets.getD i []).map Prod.fst).Nodup ∧
    ∀ kk ∈ (t.buckets.getD i []).map Prod.fst,
      (pyMod (pyHash kk) t.volume).toNat = i

instance {α : Type} [DecidableEq α] (t : HashTable α) : Decidable (WF t) := by
  unfold WF
  infer_instance

def kA : Key := ⟨0, 0⟩

def kB : Key := ⟨1, 1⟩

def kC : Key := ⟨2, 2⟩

def tABC : HashTable Nat :=
  setMany (mkHashTable Nat 2) [(kA, 1), (kB, 2), (kC, 3)]

/-! ### Construction -/

/-- Construction as the source performs it: both `HashTable.__init__` and
`ParallelHashTable.__init__` initialize unconditionally — neither has a
validation branch, so construction never fails. -/
def construct (volume : Int) : Option (HashTable Nat) :=
  some (mkHashTable Nat volume)

/-- Modelled from the spec: `construct(volume)` rejects `volume ≤ 0` with
`InvalidConfiguration` (spec §6, §7).  Stated only for comparison with
`construct`, which embeds the source. -/
def constructSpec (volume : Int) : Option (HashTable Nat) :=
  if volume ≤ 0 then none else some (mkHashTable Nat volume)

/-! ### Lock traces of the multi-lock operations of `ParallelHashTable` -/

/-- A lock event on the lock of bucket `i`. -/
inductive LockEv where
  | acq (i : Nat)
  | rel (i : Nat)
deriving DecidableEq, Repr

/-- Lock events performed by `ParallelHashTable.__iter__`: acquire every
bucket lock in list (ascending index) order, yield all keys, then release
every lock in the same order. -/
def iterLockTrace (volume : Nat) : List LockEv :=
  (List.range volume).map LockEv.acq ++ (List.range volume).map LockEv.rel

/-- Lock events performed by `ParallelHashTable.clear`: for each
`i in range(volume)`, enter `with self.locks[i]` (acquire), empty that one
bucket, and leave the `with` block (release); the counter is reset after
the loop, outside every lock. -/
def clearLockTrace (volume : Nat) : List LockEv :=
  (List.range volume).flatMap (fun i => [LockEv.acq i, LockEv.rel i])

/-- The locks held after a sequence of lock events. -/
def heldAfter (tr : List LockEv) : List Nat :=
  tr.foldl (fun held e =>
    match e with
    | LockEv.acq i => held ++ [i]
    | LockEv.rel i => held.erase i) []

/-- The acquisition order of a trace. -/
def acqOrder (tr : List LockEv) : List Nat :=
  tr.filterMap (fun e =>
    match e with
    | LockEv.acq i => some i
    | LockEv.rel _ => none)

/-- The largest number of locks simultaneously held at any point of a
trace. -/
def maxHeldCount (tr : List LockEv) : Nat :=
  ((List.range (tr.length + 1)).map
    (fun n => (heldAfter (tr.take n)).length)).foldl max 0

/-! ### Interleaved execution of `ParallelHashTable.__setitem__`

Worker processes insert integer keys (for which Python's `hash` is the
identity).  The bucket scan runs while the inserting context holds the
bucket's lock, but the counter increment `self.size.value += 1` is a fetch
of the shared value followed by a store of the incremented result — two
separate manager round-trips with no atomicity of their own, guarded only
by the lock of whichever bucket the key hashed to. -/

/-- One primitive step of `ParallelHashTable.__setitem__`. -/
inductive PInstr where
  | lockB (b : Nat)
  | putB (b : Nat) (k : Nat) (v : Nat)
  | readCtr
  | writeCtr
  | unlockB (b : Nat)
deriving DecidableEq, Repr

/-- A worker context: remaining program, the register holding the fetched
counter value, and whether its current insert appended a new entry. -/
structure WCtx where
  prog : List PInstr
  reg : Int
  didAppend : Bool
deriving DecidableEq, Repr

/-- Shared state: buckets, the shared `size` counter, the owner of each
bucket lock, and the worker contexts. -/
structure MState where
  buckets : List (List (Nat × Nat))
  counter : Int
  owner : List (Option Nat)
  ctxs : List WCtx
deriving DecidableEq, Repr

/-- The bucket logic of `__setitem__` for integer keys: overwrite in place
if the key is present, else append; reports whether it appended. -/
def bucketPutN (k v : Nat) : List (Nat × Nat) → List (Nat × Nat) × Bool
  | [] => ([(k, v)], true)
  | (k2, v2) :: rest =>
      if k2 = k then ((k, v) :: rest, false)
      else
        ((k2, v2) :: (bucketPutN k v rest).1, (bucketPutN k v rest).2)

/-- The scan of `__getitem__` for integer keys. -/
def bucketGetN (k : Nat) : List (Nat × Nat) → Option Nat
  | [] => none
  | (k2, v2) :: rest => if k2 = k then some v2 else bucketGetN k rest

/-- Execute one primitive of context `c` (a context blocked on a held lock
stays where it is). -/
def stepCtx (s : MState) (c : Nat) : MState :=
  match s.ctxs.getD c ⟨[], 0, false⟩ with
  | ⟨[], _, _⟩ => s
  | ⟨instr :: rest, reg, da⟩ =>
      match instr with
      | PInstr.lockB b =>
          match s.owner.getD b none with
          | some _ => s
          | none =>
              { s with owner := s.owner.set b (some c),
                       ctxs := s.ctxs.set c ⟨rest, reg, da⟩ }
      | PInstr.putB b k v =>
          { s with
              buckets := s.buckets.set b (bucketPutN k v (s.buckets.getD b [])).1,
              ctxs := s.ctxs.set c
                ⟨rest, reg, (bucketPutN k v (s.buckets.getD b [])).2⟩ }
      | PInstr.readCtr =>
          if da then { s with ctxs := s.ctxs.set c ⟨rest, s.counter, da⟩ }
          else { s with ctxs := s.ctxs.set c ⟨rest, reg, da⟩ }
      | PInstr.writeCtr =>
          if da then
            { s with counter := reg + 1, ctxs := s.ctxs.set c ⟨rest, reg, da⟩ }
          else { s with ctxs := s.ctxs.set c ⟨rest, reg, da⟩ }
      | PInstr.unlockB b =>
          { s with owner := s.owner.set b none,
                   ctxs := s.ctxs.set c ⟨rest, reg, da⟩ }

/-- Run a schedule: at each step the named context executes its next
primitive. -/
def runSched (s : MState) (sched : List Nat) : MState :=
  sched.foldl stepCtx s

/-- The five primitives of `__setitem__(key, value)` for an integer key:
acquire the bucket's lock, scan/mutate the bucket, fetch the shared
counter, store it back incremented (both skipped when the scan overwrote),
release the lock. -/
def insertProg (volume k v : Nat) : List PInstr :=
  [PInstr.lockB (k % volume), PInstr.putB (k % volume) k v,
   PInstr.readCtr, PInstr.writeCtr, PInstr.unlockB (k % volume)]

/-- A worker's program: insert each of its keys with value `key + 1000`. -/
def progOf (keys : List Nat) (volume : Nat) : List PInstr :=
  keys.flatMap (fun k => insertProg volume k (k + 1000))

/-- Initial shared state: `volume = 8` (the default), all buckets empty,
counter 0, no lock held; context 0 inserts keys 0–49, context 1 inserts
keys 50–99 (disjoint, 100 distinct keys in total). -/
def initMState : MState :=
  ⟨List.replicate 8 [], 0, List.replicate 8 none,
   [⟨progOf (List.range 50) 8, 0, false⟩,
    ⟨progOf ((List.range 50).map (fun i => i + 50)) 8, 0, false⟩]⟩

/-- The adversarial schedule: context 0 runs its first insert up to and
including the counter fetch, context 1 then completes its first insert
(raising the counter to 1), context 0 stores back its stale register
(the counter returns to 1 — one increment lost), and both contexts then
run to completion without further interleaving. -/
def lostSched : List Nat :=
  [0, 0, 0] ++ List.replicate 5 1 ++ [0, 0] ++
    List.replicate 245 0 ++ List.replicate 245 1

/-- The state after running the adversarial schedule. -/
def finalMState : MState := runSched initMState lostSched

/-- Retrieval of an integer key from the shared state. -/
def mLookup (s : MState) (k : Nat) : Option Nat :=
  bucketGetN k (s.buckets.getD (k % 8) [])

/-- Every one of the 100 inserted keys maps to its inserted value. -/
def allKeysOK (s : MState) : Bool :=
  (List.range 100).all (fun k => mLookup s k == some (k + 1000))

/-- Both workers ran their programs to completion. -/
def allDone (s : MState) : Bool :=
  s.ctxs.all (fun c => c.prog.isEmpty)

/-- Total number of entries stored across all buckets. -/
def sumLensN (bs : List (List (Nat × Nat))) : Nat :=
  (bs.map List.length).sum

/-- The cumulative effect on the buckets of appending `keys` in order with
value `key + 1000` each (the fresh-key path of the bucket logic). -/
def seqInsert (bs : List (List (Nat × Nat))) (keys : List Nat) :
    List (List (Nat × Nat)) :=
  keys.foldl
    (fun a k => a.set (k % 8) (a.getD (k % 8) [] ++ [(k, k + 1000)])) bs

/-- The keys context 0 still has to insert after its first insert. -/
def keysTail0 : List Nat := (List.range 49).map (fun i => i + 1)

/-- The keys context 1 still has to insert after its first insert. -/
def keysTail1 : List Nat := (List.range 49).map (fun i => i + 51)

/-- The shared state after the first ten steps of `lostSched`: key 0 and
key 50 are stored, but the counter holds 1 — context 0 overwrote context
1's increment with its stale fetched value. -/
def midMState : MState :=
  ⟨[[(0, 1000)], [], [(50, 1050)], [], [], [], [], []], 1,
   List.replicate 8 none,
   [⟨progOf keysTail0 8, 0, true⟩, ⟨progOf keysTail1 8, 0, true⟩]⟩

/-! ### Bucket-scan lemmas -/

theorem bucketGet_isSome {α : Type} (k : Key) (b : List (Key × α)) :
    (bucketGet k b).isSome = bucketHas k b := by
  induction b with
  | nil => rfl
  | cons p rest ih =>
    obtain ⟨k2, v2⟩ := p
    by_cases h : k2 = k <;> simp [bucketGet, bucketHas, h, ih]

theorem bucketGet_eq_none_iff {α : Type} (k : Key) (b : List (Key × α)) :
    bucketGet k b = none ↔ bucketHas k b = false := by
  rw [← bucketGet_isSome]
  cases bucketGet k b <;> simp

theorem bucketHas_iff_mem {α : Type} (k : Key) (b : List (Key × α)) :
    bucketHas k b = true ↔ k ∈ b.map Prod.fst := by
  induction b with
  | nil => simp [bucketHas]
  | cons p rest ih =>
    obtain ⟨k2, v2⟩ := p
    by_cases h : k2 = k
    · simp [bucketHas, h]
    · simp only [bucketHas, if_neg h, List.map_cons, List.mem_cons]
      rw [ih]
      constructor
      · exact Or.inr
      · rintro (rfl | hm)
        · exact absurd rfl h
        · exact hm

theorem bucketGet_append_of_none {α : Type} (k : Key)
    (b1 b2 : List (Key × α)) (h : bucketGet k b1 = none) :
    bucketGet k (b1 ++ b2) = bucketGet k b2 := by
  induction b1 with
  | nil => rfl
  | cons p rest ih =>
    obtain ⟨k2, v2⟩ := p
    by_cases hk : k2 = k
    · simp [bucketGet, hk] at h
    · simp [bucketGet, hk] at h ⊢
      exact ih h

theorem bucketGet_append_of_some {α : Type} (k : Key)
    (b1 b2 : List (Key × α)) (v : α) (h : bucketGet k b1 = some v) :
    bucketGet k (b1 ++ b2) = some v := by
  induction b1 with
  | nil => simp [bucketGet] at h
  | cons p rest ih =>
    obtain ⟨k2, v2⟩ := p
    by_cases hk : k2 = k
    · simp [bucketGet, hk] at h ⊢
      exact h
    · simp [bucketGet, hk] at h ⊢
      exact ih h

theorem bucketHas_append {α : Type} (k : Key) (b1 b2 : List (Key × α)) :
    bucketHas k (b1 ++ b2) = (bucketHas k b1 || bucketHas k b2) := by
  induction b1 with
  | nil => simp [bucketHas]
  | cons p rest ih =>
    obtain ⟨k2, v2⟩ := p
    by_cases hk : k2 = k <;> simp [bucketHas, hk, ih]

/-! ### Overwrite-scan lemmas -/

theorem bucketOverwrite_eq_none_iff {α : Type} (k : Key) (v : α)
    (b : List (Key × α)) :
    bucketOverwrite k v b = none ↔ bucketHas k b = false := by
  induction b with
  | nil => simp [bucketOverwrite, bucketHas]
  | cons p rest ih =>
    obtain ⟨k2, v2⟩ := p
    by_cases hk : k2 = k <;>
      simp [bucketOverwrite, bucketHas, hk, ih, Option.map_eq_none]

theorem bucketOverwrite_some_keys {α : Type} (k : Key) (v : α)
    (b b2 : List (Key × α)) (h : bucketOverwrite k v b = some b2) :
    b2.map Prod.fst = b.map Prod.fst := by
  induction b generalizing b2 with
  | nil => simp [bucketOverwrite] at h
  | cons p rest ih =>
    obtain ⟨k2, v2⟩ := p
    by_cases hk : k2 = k
    · simp [bucketOverwrite, hk] at h
      subst h
      simp [hk]
    · simp [bucketOverwrite, hk, Option.map_eq_some] at h
      obtain ⟨r, hr, hb2⟩ := h
      subst hb2
      simp [ih r hr]

theorem bucketOverwrite_get_self {α : Type} (k : Key) (v : α)
    (b b2 : List (Key × α)) (h : bucketOverwrite k v b = some b2) :
    bucketGet k b2 = some v := by
  induction b generalizing b2 with
  | nil => simp [bucketOverwrite] at h
  | cons p rest ih =>
    obtain ⟨k2, v2⟩ := p
    by_cases hk : k2 = k
    · simp [bucketOverwrite, hk] at h
      subst h
      simp [bucketGet]
    · simp [bucketOverwrite, hk, Option.map_eq_some] at h
      obtain ⟨r, hr, hb2⟩ := h
      subst hb2
      simp [bucketGet, hk]
      exact ih r hr

theorem bucketOverwrite_get_other {α : Type} (k kq : Key) (v : α)
    (b b2 : List (Key × α)) (hne : kq ≠ k)
    (h : bucketOverwrite k v b = some b2) :
    bucketGet kq b2 = bucketGet kq b := by
  induction b generalizing b2 with
  | nil => simp [bucketOverwrite] at h
  | cons p rest ih =>
    obtain ⟨k2, v2⟩ := p
    by_cases hk : k2 = k
    · simp [bucketOverwrite, hk] at h
      subst h
      subst hk
      have h2 : k2 ≠ kq := Ne.symm hne
      simp [bucketGet, h2]
    · simp [bucketOverwrite, hk, Option.map_eq_some] at h
      obtain ⟨r, hr, hb2⟩ := h
      subst hb2
      by_cases hq : k2 = kq <;> simp [bucketGet, hq, ih r hr]

/-! ### Removal-scan lemmas -/

theorem bucketDelete_eq_none_iff {α : Type} (k : Key) (b : List (Key × α)) :
    bucketDelete k b = none ↔ bucketHas k b = false := by
  induction b with
  | nil => simp [bucketDelete, bucketHas]
  | cons p rest ih =>
    obtain ⟨k2, v2⟩ := p
    by_cases hk : k2 = k <;>
      simp [bucketDelete, bucketHas, hk, ih, Option.map_eq_none]

theorem bucketDelete_some_keys {α : Type} (k : Key) (b b2 : List (Key × α))
    (h : bucketDelete k b = some b2) :
    b2.map Prod.fst = (b.map Prod.fst).erase k := by
  induction b generalizing b2 with
  | nil => simp [bucketDelete] at h
  | cons p rest ih =>
    obtain ⟨k2, v2⟩ := p
    by_cases hk : k2 = k
    · simp [bucketDelete, hk] at h
      subst h
      simp [hk, List.erase_cons_head]
    · simp [bucketDelete, hk, Option.map_eq_some] at h
      obtain ⟨r, hr, hb2⟩ := h
      subst hb2
      simp [List.erase_cons, hk, ih r hr]

theorem bucketDelete_some_length {α : Type} (k : Key) (b b2 : List (Key × α))
    (h : bucketDelete k b = some b2) :
    b2.length + 1 = b.length := by
  induction b generalizing b2 with
  | nil => simp [bucketDelete] at h
  | cons p rest ih =>
    obtain ⟨k2, v2⟩ := p
    by_cases hk : k2 = k
    · simp [bucketDelete, hk] at h
      subst h
      simp
    · simp [bucketDelete, hk, Option.map_eq_some] at h
      obtain ⟨r, hr, hb2⟩ := h
      subst hb2
      simp [← ih r hr]

theorem bucketDelete_get_other {α : Type} (k kq : Key)
    (b b2 : List (Key × α)) (hne : kq ≠ k)
    (h : bucketDelete k b = some b2) :
    bucketGet kq b2 = bucketGet kq b := by
  induction b generalizing b2 with
  | nil => simp [bucketDelete] at h
  | cons p rest ih =>
    obtain ⟨k2, v2⟩ := p
    by_cases hk : k2 = k
    · simp [bucketDelete, hk] at h
      subst h
      subst hk
      have h2 : k2 ≠ kq := Ne.symm hne
      simp [bucketGet, h2]
    · simp [bucketDelete, hk, Option.map_eq_some] at h
      obtain ⟨r, hr, hb2⟩ := h
      subst hb2
      by_cases hq : k2 = kq <;> simp [bucketGet, hq, ih r hr]

theorem bucketDelete_has_self {α : Type} (k : Key) (b b2 : List (Key × α))
    (hnd : (b.map Prod.fst).Nodup) (h : bucketDelete k b = some b2) :
    bucketHas k b2 = false := by
  have hkeys := bucketDelete_some_keys k b b2 h
  rw [← Bool.not_eq_true, bucketHas_iff_mem, hkeys]
  exact hnd.not_mem_erase

/-! ### List indexing helpers -/

theorem getD_set_self {β : Type} (bs : List β) (i : Nat) (b d : β)
    (h : i < bs.length) : (bs.set i b).getD i d = b := by
  induction bs generalizing i with
  | nil => simp at h
  | cons x xs ih =>
    cases i with
    | zero => rfl
    | succ j => simpa using ih j (by simpa using h)

theorem getD_set_ne {β : Type} (bs : List β) (i j : Nat) (b d : β)
    (h : i ≠ j) : (bs.set i b).getD j d = bs.getD j d := by
  induction bs generalizing i j with
  | nil => rfl
  | cons x xs ih =>
    cases i with
    | zero =>
      cases j with
      | zero => exact absurd rfl h
      | succ j2 => rfl
    | succ i2 =>
      cases j with
      | zero => rfl
      | succ j2 => simpa using ih i2 j2 (by omega)

theorem getElemOpt_set_self {β : Type} (bs : List β) (i : Nat) (b : β)
    (h : i < bs.length) : (bs.set i b)[i]? = some b := by
  induction bs generalizing i with
  | nil => simp at h
  | cons x xs ih =>
    cases i with
    | zero => simp
    | succ j => simpa using ih j (by simpa using h)

theorem getElemOpt_set_ne {β : Type} (bs : List β) (i j : Nat) (b : β)
    (h : i ≠ j) : (bs.set i b)[j]? = bs[j]? := by
  induction bs generalizing i j with
  | nil => rfl
  | cons x xs ih =>
    cases i with
    | zero =>
      cases j with
      | zero => exact absurd rfl h
      | succ j2 => simp
    | succ i2 =>
      cases j with
      | zero => simp
      | succ j2 => simpa using ih i2 j2 (by omega)

theorem getD_replicate {β : Type} (n j : Nat) (a : β) :
    (List.replicate n a).getD j a = a := by
  induction n generalizing j with
  | zero => rfl
  | succ m ih =>
    cases j with
    | zero => rfl
    | succ j2 => simp [List.replicate, ih j2]

theorem sumLens_cons {α : Type} (b : List (Key × α))
    (bs : List (List (Key × α))) :
    sumLens (b :: bs) = b.length + sumLens bs := by
  simp [sumLens]

theorem sumLens_set {α : Type} (bs : List (List (Key × α))) (i : Nat)
    (b : List (Key × α)) (h : i < bs.length) :
    sumLens (bs.set i b) + (bs.getD i []).length = sumLens bs + b.length := by
  induction bs generalizing i with
  | nil => simp at h
  | cons x xs ih =>
    cases i with
    | zero => simp [sumLens_cons]; omega
    | succ j =>
      have hj : j < xs.length := by simpa using h
      have := ih j hj
      simp only [List.set_cons_succ, sumLens_cons, List.getD_cons_succ]
      omega

/-! ### Hash index bounds -/

theorem hashIdx_nonneg {α : Type} (t : HashTable α) (k : Key)
    (h : 0 < t.volume) : 0 ≤ t.hashIdx k :=
  Int.fmod_nonneg' (pyHash k) h

theorem hashIdx_lt_volume {α : Type} (t : HashTable α) (k : Key)
    (h : 0 < t.volume) : t.hashIdx k < t.volume :=
  Int.fmod_lt_of_pos (pyHash k) h

theorem hashIdx_toNat_lt {α : Type} (t : HashTable α) (k : Key)
    (h : 0 < t.volume) : (t.hashIdx k).toNat < t.volume.toNat := by
  have h1 := hashIdx_nonneg t k h
  have h2 := hashIdx_lt_volume t k h
  omega

/-! ### Characterizations of `setitem` and `delitem` -/

theorem hashIdx_congr {α : Type} (t t2 : HashTable α)
    (h : t2.volume = t.volume) (k : Key) : t2.hashIdx k = t.hashIdx k := by
  unfold HashTable.hashIdx
  rw [h]

theorem setitem_of_found {α : Type} (t : HashTable α) (k : Key) (v : α)
    (b2 : List (Key × α))
    (h : bucketOverwrite k v (t.buckets.getD (t.hashIdx k).toNat []) = some b2) :
    t.setitem k v = { t with buckets := t.buckets.set (t.hashIdx k).toNat b2 } := by
  unfold HashTable.setitem
  rw [h]

theorem setitem_of_absent {α : Type} (t : HashTable α) (k : Key) (v : α)
    (h : bucketOverwrite k v (t.buckets.getD (t.hashIdx k).toNat []) = none) :
    t.setitem k v =
      { t with
          buckets := t.buckets.set (t.hashIdx k).toNat
            ((t.buckets.getD (t.hashIdx k).toNat []) ++ [(k, v)]),
          size := t.size + 1 } := by
  unfold HashTable.setitem
  rw [h]

theorem delitem_of_found {α : Type} (t : HashTable α) (k : Key)
    (b2 : List (Key × α))
    (h : bucketDelete k (t.buckets.getD (t.hashIdx k).toNat []) = some b2) :
    t.delitem k =
      some { t with buckets := t.buckets.set (t.hashIdx k).toNat b2,
                    size := t.size - 1 } := by
  unfold HashTable.delitem
  rw [h]

theorem delitem_of_absent {α : Type} (t : HashTable α) (k : Key)
    (h : bucketDelete k (t.buckets.getD (t.hashIdx k).toNat []) = none) :
    t.delitem k = none := by
  unfold HashTable.delitem
  rw [h]

theorem setitem_volume {α : Type} (t : HashTable α) (k : Key) (v : α) :
    (t.setitem k v).volume = t.volume := by
  rcases hc : bucketOverwrite k v (t.buckets.getD (t.hashIdx k).toNat [])
    with _ | b2
  · rw [setitem_of_absent t k v hc]
  · rw [setitem_of_found t k v b2 hc]

theorem setitem_hashIdx {α : Type} (t : HashTable α) (k kq : Key) (v : α) :
    (t.setitem k v).hashIdx kq = t.hashIdx kq :=
  hashIdx_congr t _ (setitem_volume t k v) kq

theorem containsKey_eq_isSome {α : Type} (t : HashTable α) (k : Key) :
    t.containsKey k = (t.getitem k).isSome :=
  (bucketGet_isSome k _).symm

theorem getitem_eq_none_iff {α : Type} (t : HashTable α) (k : Key) :
    t.getitem k = none ↔ t.containsKey k = false :=
  bucketGet_eq_none_iff k _

theorem getitem_setitem_self (t : HashTable Nat) (k : Key) (v : Nat)
    (hwf : WF t) : (t.setitem k v).getitem k = some v := by
  have hv : 0 < t.volume := hwf.1
  have hidx : (t.hashIdx k).toNat < t.buckets.length := by
    rw [hwf.2.1]
    exact hashIdx_toNat_lt t k hv
  rcases hc : bucketOverwrite k v (t.buckets.getD (t.hashIdx k).toNat [])
    with _ | b2
  · rw [setitem_of_absent t k v hc]
    show bucketGet k
        ((t.buckets.set (t.hashIdx k).toNat
          ((t.buckets.getD (t.hashIdx k).toNat []) ++ [(k, v)])).getD
            (t.hashIdx k).toNat []) = some v
    rw [getD_set_self _ _ _ _ hidx]
    have hget : bucketGet k (t.buckets.getD (t.hashIdx k).toNat []) = none := by
      rw [bucketGet_eq_none_iff]
      exact (bucketOverwrite_eq_none_iff k v _).mp hc
    rw [bucketGet_append_of_none k _ _ hget]
    simp [bucketGet]
  · rw [setitem_of_found t k v b2 hc]
    show bucketGet k
        ((t.buckets.set (t.hashIdx k).toNat b2).getD (t.hashIdx k).toNat []) =
      some v
    rw [getD_set_self _ _ _ _ hidx]
    exact bucketOverwrite_get_self k v _ b2 hc

theorem getitem_setitem_other (t : HashTable Nat) (k kq : Key) (v : Nat)
    (hwf : WF t) (hne : kq ≠ k) :
    (t.setitem k v).getitem kq = t.getitem kq := by
  have hidx : (t.hashIdx k).toNat < t.buckets.length := by
    rw [hwf.2.1]
    exact hashIdx_toNat_lt t k hwf.1
  rcases hc : bucketOverwrite k v (t.buckets.getD (t.hashIdx k).toNat [])
    with _ | b2
  · rw [setitem_of_absent t k v hc]
    show bucketGet kq
        ((t.buckets.set (t.hashIdx k).toNat
          ((t.buckets.getD (t.hashIdx k).toNat []) ++ [(k, v)])).getD
            (t.hashIdx kq).toNat []) =
      bucketGet kq (t.buckets.getD (t.hashIdx kq).toNat [])
    by_cases hij : (t.hashIdx k).toNat = (t.hashIdx kq).toNat
    · rw [← hij, getD_set_self _ _ _ _ hidx]
      rcases hq : bucketGet kq (t.buckets.getD (t.hashIdx k).toNat [])
        with _ | v2
      · rw [bucketGet_append_of_none kq _ _ hq]
        have h2 : k ≠ kq := Ne.symm hne
        simp [bucketGet, h2]
      · exact bucketGet_append_of_some kq _ _ v2 hq
    · rw [getD_set_ne _ _ _ _ _ hij]
  · rw [setitem_of_found t k v b2 hc]
    show bucketGet kq
        ((t.buckets.set (t.hashIdx k).toNat b2).getD (t.hashIdx kq).toNat []) =
      bucketGet kq (t.buckets.getD (t.hashIdx kq).toNat [])
    by_cases hij : (t.hashIdx k).toNat = (t.hashIdx kq).toNat
    · rw [← hij, getD_set_self _ _ _ _ hidx]
      exact bucketOverwrite_get_other k kq v _ b2 hne hc
    · rw [getD_set_ne _ _ _ _ _ hij]

theorem WF_setitem (t : HashTable Nat) (k : Key) (v : Nat) (hwf : WF t) :
    WF (t.setitem k v) := by
  obtain ⟨hv, hlen, hsize, hbuck⟩ := hwf
  have hidx : (t.hashIdx k).toNat < t.buckets.length := by
    rw [hlen]
    exact hashIdx_toNat_lt t k hv
  rcases hc : bucketOverwrite k v (t.buckets.getD (t.hashIdx k).toNat [])
    with _ | b2
  · rw [setitem_of_absent t k v hc]
    have hnot : bucketHas k (t.buckets.getD (t.hashIdx k).toNat []) = false :=
      (bucketOverwrite_eq_none_iff k v _).mp hc
    have hkmem : k ∉ (t.buckets.getD (t.hashIdx k).toNat []).map Prod.fst := by
      intro hm
      have hb := (bucketHas_iff_mem k _).mpr hm
      rw [hnot] at hb
      cases hb
    refine ⟨hv, ?_, ?_, ?_⟩
    · show (t.buckets.set (t.hashIdx k).toNat
          ((t.buckets.getD (t.hashIdx k).toNat []) ++ [(k, v)])).length =
        t.volume.toNat
      simpa using hlen
    · show t.size + 1 = (sumLens (t.buckets.set (t.hashIdx k).toNat
        ((t.buckets.getD (t.hashIdx k).toNat []) ++ [(k, v)])) : Int)
      have hs := sumLens_set t.buckets (t.hashIdx k).toNat
        ((t.buckets.getD (t.hashIdx k).toNat []) ++ [(k, v)]) hidx
      simp only [List.length_append, List.length_cons, List.length_nil] at hs
      omega
    · intro j hj
      have hj2 : j < t.buckets.length := by simpa using hj
      by_cases hji : (t.hashIdx k).toNat = j
      · subst hji
        show ((( t.buckets.set (t.hashIdx k).toNat
              ((t.buckets.getD (t.hashIdx k).toNat []) ++ [(k, v)])).getD
                (t.hashIdx k).toNat []).map Prod.fst).Nodup ∧ _
        rw [getD_set_self _ _ _ _ hidx]
        have hkeys : ((t.buckets.getD (t.hashIdx k).toNat [] ++
            [(k, v)]).map Prod.fst) =
            (t.buckets.getD (t.hashIdx k).toNat []).map Prod.fst ++ [k] := by
          simp
        constructor
        · rw [hkeys, List.nodup_append]
          refine ⟨(hbuck _ hidx).1, List.nodup_singleton k, ?_⟩
          intro a ha hb
          simp only [List.mem_singleton] at hb
          subst hb
          exact hkmem ha
        · intro kk hkk
          rw [hkeys] at hkk
          rcases List.mem_append.mp hkk with h1 | h2
          · exact (hbuck _ hidx).2 kk h1
          · simp only [List.mem_singleton] at h2
            subst h2
            rfl
      · show ((( t.buckets.set (t.hashIdx k).toNat
              ((t.buckets.getD (t.hashIdx k).toNat []) ++ [(k, v)])).getD
                j []).map Prod.fst).Nodup ∧ _
        rw [getD_set_ne _ _ _ _ _ hji]
        exact hbuck j hj2
  · rw [setitem_of_found t k v b2 hc]
    have hkeys := bucketOverwrite_some_keys k v _ b2 hc
    have hlen2 : b2.length = (t.buckets.getD (t.hashIdx k).toNat []).length := by
      have := congrArg List.length hkeys
      simpa using this
    refine ⟨hv, ?_, ?_, ?_⟩
    · show (t.buckets.set (t.hashIdx k).toNat b2).length = t.volume.toNat
      simpa using hlen
    · show t.size = (sumLens (t.buckets.set (t.hashIdx k).toNat b2) : Int)
      have hs := sumLens_set t.buckets (t.hashIdx k).toNat b2 hidx
      omega
    · intro j hj
      have hj2 : j < t.buckets.length := by simpa using hj
      by_cases hji : (t.hashIdx k).toNat = j
      · subst hji
        show (((t.buckets.set (t.hashIdx k).toNat b2).getD
            (t.hashIdx k).toNat []).map Prod.fst).Nodup ∧ _
        rw [getD_set_self _ _ _ _ hidx]
        constructor
        · rw [hkeys]
          exact (hbuck _ hidx).1
        · intro kk hkk
          rw [hkeys] at hkk
          exact (hbuck _ hidx).2 kk hkk
      · show (((t.buckets.set (t.hashIdx k).toNat b2).getD j []).map
            Prod.fst).Nodup ∧ _
        rw [getD_set_ne _ _ _ _ _ hji]
        exact hbuck j hj2

theorem setitem_size_overwrite {α : Type} (t : HashTable α) (k : Key) (v : α)
    (hfound : t.containsKey k = true) : (t.setitem k v).size = t.size := by
  rcases hc : bucketOverwrite k v (t.buckets.getD (t.hashIdx k).toNat [])
    with _ | b2
  · have := (bucketOverwrite_eq_none_iff k v _).mp hc
    rw [HashTable.containsKey] at hfound
    rw [hfound] at this
    cases this
  · rw [setitem_of_found t k v b2 hc]

theorem setitem_size_new {α : Type} (t : HashTable α) (k : Key) (v : α)
    (habs : t.containsKey k = false) : (t.setitem k v).size = t.size + 1 := by
  have hc : bucketOverwrite k v (t.buckets.getD (t.hashIdx k).toNat []) = none :=
    (bucketOverwrite_eq_none_iff k v _).mpr habs
  rw [setitem_of_absent t k v hc]

theorem delitem_eq_none_iff {α : Type} (t : HashTable α) (k : Key) :
    t.delitem k = none ↔ t.containsKey k = false := by
  rcases hc : bucketDelete k (t.buckets.getD (t.hashIdx k).toNat []) with _ | b2
  · rw [delitem_of_absent t k hc]
    constructor
    · intro _
      exact (bucketDelete_eq_none_iff k _).mp hc
    · intro _
      rfl
  · rw [delitem_of_found t k b2 hc]
    constructor
    · intro h
      cases h
    · intro h
      have := (bucketDelete_eq_none_iff k _).mpr h
      rw [hc] at this
      cases this

theorem delitem_inv {α : Type} (t t2 : HashTable α) (k : Key)
    (hdel : t.delitem k = some t2) :
    ∃ b2, bucketDelete k (t.buckets.getD (t.hashIdx k).toNat []) = some b2 ∧
      t2 = { t with buckets := t.buckets.set (t.hashIdx k).toNat b2,
                    size := t.size - 1 } := by
  unfold HashTable.delitem at hdel
  rcases hc : bucketDelete k (t.buckets.getD (t.hashIdx k).toNat []) with _ | b2
  · rw [hc] at hdel
    cases hdel
  · rw [hc] at hdel
    exact ⟨b2, rfl, (Option.some.inj hdel).symm⟩

theorem WF_delitem (t t2 : HashTable Nat) (k : Key) (hwf : WF t)
    (hdel : t.delitem k = some t2) : WF t2 := by
  obtain ⟨hv, hlen, hsize, hbuck⟩ := hwf
  have hidx : (t.hashIdx k).toNat < t.buckets.length := by
    rw [hlen]
    exact hashIdx_toNat_lt t k hv
  obtain ⟨b2, hc, rfl⟩ := delitem_inv t t2 k hdel
  have hkeys := bucketDelete_some_keys k _ b2 hc
  have hl2 := bucketDelete_some_length k _ b2 hc
  refine ⟨hv, ?_, ?_, ?_⟩
  · show (t.buckets.set (t.hashIdx k).toNat b2).length = t.volume.toNat
    simpa using hlen
  · show t.size - 1 = (sumLens (t.buckets.set (t.hashIdx k).toNat b2) : Int)
    have hs := sumLens_set t.buckets (t.hashIdx k).toNat b2 hidx
    omega
  · intro j hj
    have hj2 : j < t.buckets.length := by simpa using hj
    by_cases hji : (t.hashIdx k).toNat = j
    · subst hji
      show (((t.buckets.set (t.hashIdx k).toNat b2).getD
          (t.hashIdx k).toNat []).map Prod.fst).Nodup ∧ _
      rw [getD_set_self _ _ _ _ hidx]
      constructor
      · rw [hkeys]
        exact ((hbuck _ hidx).1).erase k
      · intro kk hkk
        rw [hkeys] at hkk
        exact (hbuck _ hidx).2 kk (List.mem_of_mem_erase hkk)
    · show (((t.buckets.set (t.hashIdx k).toNat b2).getD j []).map
          Prod.fst).Nodup ∧ _
      rw [getD_set_ne _ _ _ _ _ hji]
      exact hbuck j hj2

theorem delitem_size {α : Type} (t t2 : HashTable α) (k : Key)
    (hdel : t.delitem k = some t2) : t2.size = t.size - 1 := by
  obtain ⟨b2, hc, rfl⟩ := delitem_inv t t2 k hdel
  rfl

theorem delitem_volume {α : Type} (t t2 : HashTable α) (k : Key)
    (hdel : t.delitem k = some t2) : t2.volume = t.volume := by
  obtain ⟨b2, hc, rfl⟩ := delitem_inv t t2 k hdel
  rfl

theorem getitem_delitem_self (t t2 : HashTable Nat) (k : Key) (hwf : WF t)
    (hdel : t.delitem k = some t2) : t2.getitem k = none := by
  obtain ⟨hv, hlen, hsize, hbuck⟩ := hwf
  have hidx : (t.hashIdx k).toNat < t.buckets.length := by
    rw [hlen]
    exact hashIdx_toNat_lt t k hv
  obtain ⟨b2, hc, rfl⟩ := delitem_inv t t2 k hdel
  show bucketGet k
      ((t.buckets.set (t.hashIdx k).toNat b2).getD (t.hashIdx k).toNat []) =
    none
  rw [getD_set_self _ _ _ _ hidx, bucketGet_eq_none_iff]
  exact bucketDelete_has_self k _ b2 (hbuck _ hidx).1 hc

theorem getitem_delitem_other (t t2 : HashTable Nat) (k kq : Key) (hwf : WF t)
    (hne : kq ≠ k) (hdel : t.delitem k = some t2) :
    t2.getitem kq = t.getitem kq := by
  obtain ⟨hv, hlen, hsize, hbuck⟩ := hwf
  have hidx : (t.hashIdx k).toNat < t.buckets.length := by
    rw [hlen]
    exact hashIdx_toNat_lt t k hv
  obtain ⟨b2, hc, rfl⟩ := delitem_inv t t2 k hdel
  show bucketGet kq
      ((t.buckets.set (t.hashIdx k).toNat b2).getD (t.hashIdx kq).toNat []) =
    bucketGet kq (t.buckets.getD (t.hashIdx kq).toNat [])
  by_cases hij : (t.hashIdx k).toNat = (t.hashIdx kq).toNat
  · rw [← hij, getD_set_self _ _ _ _ hidx]
    exact bucketDelete_get_other k kq _ b2 hne hc
  · rw [getD_set_ne _ _ _ _ _ hij]

/-! ### `clear` -/

theorem set_of_len_le {β : Type} (bs : List β) (i : Nat) (b : β)
    (h : bs.length ≤ i) : bs.set i b = bs := by
  induction bs generalizing i with
  | nil => rfl
  | cons x xs ih =>
    cases i with
    | zero => simp at h
    | succ j => simp [ih j (by simpa using h)]

theorem foldl_set_len {β : Type} (l : List Nat) (bs : List β) (b : β) :
    (l.foldl (fun a i => a.set i b) bs).length = bs.length := by
  induction l generalizing bs with
  | nil => rfl
  | cons x xs ih => simp [List.foldl_cons, ih]

theorem clearFold_getElem {α : Type} (m : Nat)
    (bs : List (List (Key × α))) (j : Nat) :
    ((List.range m).foldl (fun a i => a.set i []) bs)[j]? =
      if j < m ∧ j < bs.length then some [] else bs[j]? := by
  induction m with
  | zero => simp
  | succ n ih =>
    rw [List.range_succ, List.foldl_append]
    simp only [List.foldl_cons, List.foldl_nil]
    by_cases hj : n = j
    · subst hj
      by_cases hlt : n < bs.length
      · rw [getElemOpt_set_self _ _ _ (by rw [foldl_set_len]; exact hlt)]
        simp [hlt]
      · rw [set_of_len_le _ _ _ (by rw [foldl_set_len]; omega), ih]
        have hcond : ¬(n < n ∧ n < bs.length) := by omega
        have hcond2 : ¬(n < n + 1 ∧ n < bs.length) := by omega
        rw [if_neg hcond, if_neg hcond2]
    · rw [getElemOpt_set_ne _ _ _ _ hj, ih]
      have hiff : (j < n ∧ j < bs.length) ↔ (j < n + 1 ∧ j < bs.length) := by
        omega
      by_cases hcond : j < n ∧ j < bs.length
      · rw [if_pos hcond, if_pos (hiff.mp hcond)]
      · rw [if_neg hcond, if_neg (fun hcc => hcond (hiff.mpr hcc))]

theorem clearAll_buckets {α : Type} (t : HashTable α)
    (hlen : t.buckets.length = t.volume.toNat) :
    t.clearAll.buckets = List.replicate t.buckets.length [] := by
  show (List.range t.volume.toNat).foldl (fun bs i => bs.set i []) t.buckets =
    List.replicate t.buckets.length []
  apply List.ext_getElem?
  intro j
  rw [clearFold_getElem]
  rw [List.getElem?_replicate]
  by_cases hj : j < t.buckets.length
  · rw [if_pos ⟨by omega, hj⟩, if_pos hj]
  · rw [if_neg (by omega), if_neg hj]
    exact List.getElem?_eq_none (by omega)

theorem clearAll_size {α : Type} (t : HashTable α) : t.clearAll.size = 0 :=
  rfl

theorem clearAll_volume {α : Type} (t : HashTable α) :
    t.clearAll.volume = t.volume :=
  rfl

theorem sumLens_replicate {α : Type} (n : Nat) :
    sumLens (List.replicate n ([] : List (Key × α))) = 0 := by
  induction n with
  | zero => rfl
  | succ m ih => simpa [List.replicate, sumLens_cons] using ih

theorem clearAll_bucket_empty {α : Type} (t : HashTable α)
    (hlen : t.buckets.length = t.volume.toNat) :
    ∀ b ∈ t.clearAll.buckets, b = [] := by
  rw [clearAll_buckets t hlen]
  intro b hb
  exact List.eq_of_mem_replicate hb

theorem clearAll_contains {α : Type} (t : HashTable α)
    (hlen : t.buckets.length = t.volume.toNat) (k : Key) :
    t.clearAll.containsKey k = false := by
  unfold HashTable.containsKey
  rw [clearAll_buckets t hlen]
  have : ∀ j, (List.replicate t.buckets.length
      ([] : List (Key × α))).getD j [] = [] := by
    intro j
    exact getD_replicate _ _ _
  rw [this]
  rfl

theorem WF_clearAll {α : Type} (t : HashTable α) (hwf : WF t) :
    WF t.clearAll := by
  obtain ⟨hv, hlen, _, _⟩ := hwf
  refine ⟨hv, ?_, ?_, ?_⟩
  · rw [clearAll_buckets t hlen, clearAll_volume]
    simp [hlen]
  · rw [clearAll_buckets t hlen, clearAll_size, sumLens_replicate]
    rfl
  · intro j hj
    rw [clearAll_buckets t hlen] at hj ⊢
    rw [getD_replicate]
    simp

/-! ### Iteration -/

theorem flatMap_keys_length {α : Type} (bs : List (List (Key × α))) :
    (bs.flatMap (fun b => b.map Prod.fst)).length = sumLens bs := by
  induction bs with
  | nil => rfl
  | cons x xs ih => simp [sumLens_cons, ih]

theorem mem_flatMapKeys {α : Type} (bs : List (List (Key × α))) (a : Key) :
    a ∈ bs.flatMap (fun b => b.map Prod.fst) ↔
      ∃ j, j < bs.length ∧ a ∈ (bs.getD j []).map Prod.fst := by
  induction bs with
  | nil => simp
  | cons x xs ih =>
    simp only [List.flatMap_cons, List.mem_append, ih]
    constructor
    · rintro (hx | ⟨j, hj, hmem⟩)
      · exact ⟨0, by simp, hx⟩
      · exact ⟨j + 1, by simpa using hj, hmem⟩
    · rintro ⟨j, hj, hmem⟩
      cases j with
      | zero => exact Or.inl hmem
      | succ j2 => exact Or.inr ⟨j2, by simpa using hj, hmem⟩

theorem flatMap_keys_nodup {α : Type} (bs : List (List (Key × α)))
    (f : Key → Nat)
    (h : ∀ i, i < bs.length → ((bs.getD i []).map Prod.fst).Nodup ∧
      ∀ kk ∈ (bs.getD i []).map Prod.fst, f kk = i) :
    (bs.flatMap (fun b => b.map Prod.fst)).Nodup := by
  induction bs generalizing f with
  | nil => simp
  | cons x xs ih =>
    rw [List.flatMap_cons, List.nodup_append]
    refine ⟨(h 0 (by simp)).1, ?_, ?_⟩
    · refine ih (fun kk => f kk - 1) (fun i hi => ?_)
      have h2 := h (i + 1) (by simpa using hi)
      rw [List.getD_cons_succ] at h2
      refine ⟨h2.1, fun kk hkk => ?_⟩
      have h3 := h2.2 kk hkk
      show f kk - 1 = i
      omega
    · intro a ha hb
      have h0 : f a = 0 := (h 0 (by simp)).2 a ha
      obtain ⟨j, hj, hmem⟩ := (mem_flatMapKeys xs a).mp hb
      have h1 : f a = j + 1 := (h (j + 1) (by simpa using hj)).2 a hmem
      omega

theorem iterKeys_length {α : Type} (t : HashTable α) :
    t.iterKeys.length = sumLens t.buckets :=
  flatMap_keys_length t.buckets

theorem iterKeys_nodup (t : HashTable Nat) (hwf : WF t) :
    t.iterKeys.Nodup :=
  flatMap_keys_nodup t.buckets
    (fun kk => (pyMod (pyHash kk) t.volume).toNat) hwf.2.2.2

theorem iterKeys_mem_iff (t : HashTable Nat) (hwf : WF t) (k : Key) :
    k ∈ t.iterKeys ↔ t.containsKey k = true := by
  obtain ⟨hv, hlen, hsize, hbuck⟩ := hwf
  have hidx : (t.hashIdx k).toNat < t.buckets.length := by
    rw [hlen]
    exact hashIdx_toNat_lt t k hv
  rw [show t.iterKeys = t.buckets.flatMap (fun b => b.map Prod.fst) from rfl,
    mem_flatMapKeys]
  constructor
  · rintro ⟨j, hj, hmem⟩
    have hplace := (hbuck j hj).2 k hmem
    unfold HashTable.containsKey
    rw [show (t.hashIdx k).toNat = j from hplace]
    exact (bucketHas_iff_mem k _).mpr hmem
  · intro hcon
    refine ⟨(t.hashIdx k).toNat, hidx, ?_⟩
    exact (bucketHas_iff_mem k _).mp hcon

/-! ### Construction -/

theorem WF_mkHashTable (v : Int) (hv : 0 < v) : WF (mkHashTable Nat v) := by
  refine ⟨hv, by simp [mkHashTable], ?_, ?_⟩
  · show (0 : Int) = (sumLens (List.replicate v.toNat
      ([] : List (Key × Nat))) : Int)
    rw [sumLens_replicate]
    rfl
  · intro j hj
    have hb : (mkHashTable Nat v).buckets.getD j [] = [] := by
      show (List.replicate v.toNat ([] : List (Key × Nat))).getD j [] = []
      exact getD_replicate _ _ _
    rw [hb]
    simp

/-! ### Sequences of `set` calls -/

theorem setMany_cons (t : HashTable Nat) (p : Key × Nat)
    (ps : List (Key × Nat)) :
    setMany t (p :: ps) = setMany (t.setitem p.1 p.2) ps :=
  rfl

theorem WF_setMany (t : HashTable Nat) (ps : List (Key × Nat)) (hwf : WF t) :
    WF (setMany t ps) := by
  induction ps generalizing t with
  | nil => exact hwf
  | cons p rest ih =>
    rw [setMany_cons]
    exact ih (t.setitem p.1 p.2) (WF_setitem t p.1 p.2 hwf)

theorem getitem_setMany_not_mem (t : HashTable Nat) (ps : List (Key × Nat))
    (k : Key) (hwf : WF t) (hnot : k ∉ ps.map Prod.fst) :
    (setMany t ps).getitem k = t.getitem k := by
  induction ps generalizing t with
  | nil => rfl
  | cons p rest ih =>
    obtain ⟨k2, v2⟩ := p
    simp only [List.map_cons, List.mem_cons, not_or] at hnot
    rw [setMany_cons]
    rw [ih (t.setitem k2 v2) (WF_setitem t k2 v2 hwf) hnot.2]
    exact getitem_setitem_other t k2 k v2 hwf hnot.1

theorem getitem_setMany_mem (t : HashTable Nat) (ps : List (Key × Nat))
    (k : Key) (v : Nat) (hwf : WF t) (hnd : (ps.map Prod.fst).Nodup)
    (hmem : (k, v) ∈ ps) : (setMany t ps).getitem k = some v := by
  induction ps generalizing t with
  | nil => cases hmem
  | cons p rest ih =>
    obtain ⟨k2, v2⟩ := p
    simp only [List.map_cons, List.nodup_cons] at hnd
    rw [setMany_cons]
    rcases List.mem_cons.mp hmem with heq | hrest
    · cases heq
      rw [getitem_setMany_not_mem _ rest k (WF_setitem t k v hwf) hnd.1]
      exact getitem_setitem_self t k v hwf
    · exact ih (t.setitem k2 v2) (WF_setitem t k2 v2 hwf) hnd.2 hrest

/-! ### Symbolic execution of one `__setitem__` -/

theorem runSched_cons (s : MState) (c : Nat) (l : List Nat) :
    runSched s (c :: l) = runSched (stepCtx s c) l :=
  rfl

theorem runSched_append (s : MState) (l1 l2 : List Nat) :
    runSched s (l1 ++ l2) = runSched (runSched s l1) l2 :=
  List.foldl_append _ _ _ _

theorem set_replicate_self {β : Type} (n i : Nat) (a : β) :
    (List.replicate n a).set i a = List.replicate n a := by
  induction n generalizing i with
  | zero => rfl
  | succ m ih =>
    cases i with
    | zero => simp [List.replicate_succ]
    | succ j => simp [List.replicate_succ, ih]

theorem bucketPutN_fresh (k v : Nat) (b : List (Nat × Nat))
    (hfresh : bucketGetN k b = none) :
    bucketPutN k v b = (b ++ [(k, v)], true) := by
  induction b with
  | nil => rfl
  | cons p rest ih =>
    obtain ⟨k2, v2⟩ := p
    by_cases hk : k2 = k
    · simp [bucketGetN, hk] at hfresh
    · simp only [bucketGetN, if_neg hk] at hfresh
      simp [bucketPutN, hk, ih hfresh]

theorem stepCtx_lock (bs : List (List (Nat × Nat))) (ctr : Int)
    (ow : List (Option Nat)) (cs : List WCtx) (c b : Nat)
    (p2 : List PInstr) (reg : Int) (da : Bool)
    (hc : cs.getD c ⟨[], 0, false⟩ = ⟨PInstr.lockB b :: p2, reg, da⟩)
    (hob : ow.getD b none = none) :
    stepCtx ⟨bs, ctr, ow, cs⟩ c =
      ⟨bs, ctr, ow.set b (some c), cs.set c ⟨p2, reg, da⟩⟩ := by
  unfold stepCtx
  dsimp only
  rw [hc]
  dsimp only
  rw [hob]

theorem stepCtx_put (bs : List (List (Nat × Nat))) (ctr : Int)
    (ow : List (Option Nat)) (cs : List WCtx) (c b k v : Nat)
    (p2 : List PInstr) (reg : Int) (da : Bool)
    (hc : cs.getD c ⟨[], 0, false⟩ = ⟨PInstr.putB b k v :: p2, reg, da⟩) :
    stepCtx ⟨bs, ctr, ow, cs⟩ c =
      ⟨bs.set b (bucketPutN k v (bs.getD b [])).1, ctr, ow,
       cs.set c ⟨p2, reg, (bucketPutN k v (bs.getD b [])).2⟩⟩ := by
  unfold stepCtx
  dsimp only
  rw [hc]

theorem stepCtx_read_true (bs : List (List (Nat × Nat))) (ctr : Int)
    (ow : List (Option Nat)) (cs : List WCtx) (c : Nat)
    (p2 : List PInstr) (reg : Int)
    (hc : cs.getD c ⟨[], 0, false⟩ = ⟨PInstr.readCtr :: p2, reg, true⟩) :
    stepCtx ⟨bs, ctr, ow, cs⟩ c = ⟨bs, ctr, ow, cs.set c ⟨p2, ctr, true⟩⟩ := by
  unfold stepCtx
  dsimp only
  rw [hc]
  simp

theorem stepCtx_write_true (bs : List (List (Nat × Nat))) (ctr : Int)
    (ow : List (Option Nat)) (cs : List WCtx) (c : Nat)
    (p2 : List PInstr) (reg : Int)
    (hc : cs.getD c ⟨[], 0, false⟩ = ⟨PInstr.writeCtr :: p2, reg, true⟩) :
    stepCtx ⟨bs, ctr, ow, cs⟩ c =
      ⟨bs, reg + 1, ow, cs.set c ⟨p2, reg, true⟩⟩ := by
  unfold stepCtx
  dsimp only
  rw [hc]
  simp

theorem stepCtx_unlock (bs : List (List (Nat × Nat))) (ctr : Int)
    (ow : List (Option Nat)) (cs : List WCtx) (c b : Nat)
    (p2 : List PInstr) (reg : Int) (da : Bool)
    (hc : cs.getD c ⟨[], 0, false⟩ = ⟨PInstr.unlockB b :: p2, reg, da⟩) :
    stepCtx ⟨bs, ctr, ow, cs⟩ c =
      ⟨bs, ctr, ow.set b none, cs.set c ⟨p2, reg, da⟩⟩ := by
  unfold stepCtx
  dsimp only
  rw [hc]

/-- An uncontended `__setitem__` of a fresh key: the five primitives run
back to back, append the entry and raise the counter by exactly one. -/
theorem run_insert (bs : List (List (Nat × Nat))) (ctr : Int)
    (ow : List (Option Nat)) (cs : List WCtx) (c k v : Nat)
    (rest : List PInstr) (reg : Int) (da : Bool)
    (hclen : c < cs.length)
    (hc : cs.getD c ⟨[], 0, false⟩ = ⟨insertProg 8 k v ++ rest, reg, da⟩)
    (hob : ow.getD (k % 8) none = none)
    (hfresh : bucketGetN k (bs.getD (k % 8) []) = none) :
    runSched ⟨bs, ctr, ow, cs⟩ [c, c, c, c, c] =
      ⟨bs.set (k % 8) ((bs.getD (k % 8) []) ++ [(k, v)]), ctr + 1,
       ow.set (k % 8) none, cs.set c ⟨rest, ctr, true⟩⟩ := by
  have hput := bucketPutN_fresh k v (bs.getD (k % 8) []) hfresh
  rw [runSched_cons, stepCtx_lock bs ctr ow cs c (k % 8)
    (PInstr.putB (k % 8) k v :: PInstr.readCtr :: PInstr.writeCtr ::
      PInstr.unlockB (k % 8) :: rest) reg da hc hob]
  rw [runSched_cons, stepCtx_put bs ctr (ow.set (k % 8) (some c))
    (cs.set c ⟨PInstr.putB (k % 8) k v :: PInstr.readCtr ::
      PInstr.writeCtr :: PInstr.unlockB (k % 8) :: rest, reg, da⟩)
    c (k % 8) k v
    (PInstr.readCtr :: PInstr.writeCtr :: PInstr.unlockB (k % 8) :: rest)
    reg da (getD_set_self cs c _ _ hclen)]
  rw [hput]
  dsimp only
  rw [runSched_cons, stepCtx_read_true
    (bs.set (k % 8) ((bs.getD (k % 8) []) ++ [(k, v)])) ctr
    (ow.set (k % 8) (some c)) _ c
    (PInstr.writeCtr :: PInstr.unlockB (k % 8) :: rest) reg
    (getD_set_self _ c _ _ (by simpa using hclen))]
  rw [runSched_cons, stepCtx_write_true
    (bs.set (k % 8) ((bs.getD (k % 8) []) ++ [(k, v)])) ctr
    (ow.set (k % 8) (some c)) _ c
    (PInstr.unlockB (k % 8) :: rest) ctr
    (getD_set_self _ c _ _ (by simpa using hclen))]
  rw [runSched_cons, stepCtx_unlock
    (bs.set (k % 8) ((bs.getD (k % 8) []) ++ [(k, v)])) (ctr + 1)
    (ow.set (k % 8) (some c)) _ c (k % 8) rest ctr true
    (getD_set_self _ c _ _ (by simpa using hclen))]
  show (⟨bs.set (k % 8) ((bs.getD (k % 8) []) ++ [(k, v)]), ctr + 1,
      (ow.set (k % 8) (some c)).set (k % 8) none, _⟩ : MState) = _
  rw [List.set_set]
  simp only [List.set_set]

theorem set_getD_eq_self {β : Type} (l : List β) (i : Nat) (d : β)
    (h : i < l.length) : l.set i (l.getD i d) = l := by
  induction l generalizing i with
  | nil => rfl
  | cons x xs ih =>
    cases i with
    | zero => rfl
    | succ j =>
      show x :: xs.set j ((x :: xs).getD (j + 1) d) = x :: xs
      rw [List.getD_cons_succ, ih j (by simpa using h)]

theorem bucketGetN_append_of_none (k : Nat) (b1 b2 : List (Nat × Nat))
    (h : bucketGetN k b1 = none) :
    bucketGetN k (b1 ++ b2) = bucketGetN k b2 := by
  induction b1 with
  | nil => rfl
  | cons p rest ih =>
    obtain ⟨k2, v2⟩ := p
    by_cases hk : k2 = k
    · simp [bucketGetN, hk] at h
    · simp only [bucketGetN, if_neg hk] at h ⊢
      exact ih h

/-- Running a worker's whole program when no other context takes a step:
each fresh key is appended and the counter rises by the number of keys. -/
theorem run_seq (keys : List Nat) (bs : List (List (Nat × Nat))) (ctr : Int)
    (cs : List WCtx) (c : Nat) (reg : Int) (da : Bool)
    (hbs : bs.length = 8) (hclen : c < cs.length)
    (hc : cs.getD c ⟨[], 0, false⟩ = ⟨progOf keys 8, reg, da⟩)
    (hnd : keys.Nodup)
    (hfresh : ∀ k ∈ keys, bucketGetN k (bs.getD (k % 8) []) = none) :
    ∃ rg : Int, ∃ dd : Bool,
      runSched ⟨bs, ctr, List.replicate 8 none, cs⟩
          (List.replicate (5 * keys.length) c) =
        ⟨seqInsert bs keys, ctr + keys.length, List.replicate 8 none,
         cs.set c ⟨[], rg, dd⟩⟩ := by
  induction keys generalizing bs ctr cs reg da with
  | nil =>
    refine ⟨reg, da, ?_⟩
    show (⟨bs, ctr, List.replicate 8 none, cs⟩ : MState) = _
    rw [show cs.set c ⟨[], reg, da⟩ = cs from ?_]
    · simp [seqInsert]
    · rw [show (⟨[], reg, da⟩ : WCtx) = cs.getD c ⟨[], 0, false⟩ from ?_]
      · exact set_getD_eq_self cs c _ hclen
      · rw [hc]
        rfl
  | cons k rest ih =>
    have hk8 : k % 8 < 8 := Nat.mod_lt k (by omega)
    have hsched : List.replicate (5 * (k :: rest).length) c =
        [c, c, c, c, c] ++ List.replicate (5 * rest.length) c := by
      rw [show 5 * (k :: rest).length = 5 + 5 * rest.length from by
        simp [List.length_cons]; ring]
      rw [List.replicate_add]
      rfl
    rw [hsched, runSched_append]
    have hprog : cs.getD c ⟨[], 0, false⟩ =
        ⟨insertProg 8 k (k + 1000) ++ progOf rest 8, reg, da⟩ := hc
    rw [run_insert bs ctr (List.replicate 8 none) cs c k (k + 1000)
      (progOf rest 8) reg da hclen hprog
      (getD_replicate 8 (k % 8) none)
      (hfresh k (List.mem_cons_self k rest))]
    rw [set_replicate_self]
    simp only [List.map_cons, List.nodup_cons] at hnd
    have hfresh2 : ∀ k2 ∈ rest,
        bucketGetN k2 ((bs.set (k % 8)
          ((bs.getD (k % 8) []) ++ [(k, k + 1000)])).getD (k2 % 8) []) =
          none := by
      intro k2 hk2
      by_cases hb : (k % 8) = (k2 % 8)
      · rw [← hb, getD_set_self _ _ _ _ (by omega)]
        have hf2 := hfresh k2 (by simp [hk2])
        rw [← hb] at hf2
        rw [bucketGetN_append_of_none k2 _ _ hf2]
        have hne : k ≠ k2 := fun he => hnd.1 (he ▸ hk2)
        simp [bucketGetN, hne]
      · rw [getD_set_ne _ _ _ _ _ hb]
        exact hfresh k2 (by simp [hk2])
    obtain ⟨rg, dd, hrun⟩ := ih
      (bs.set (k % 8) ((bs.getD (k % 8) []) ++ [(k, k + 1000)]))
      (ctr + 1) (cs.set c ⟨progOf rest 8, ctr, true⟩) ctr true
      (by simpa using hbs) (by simpa using hclen)
      (getD_set_self cs c _ _ hclen) hnd.2 hfresh2
    refine ⟨rg, dd, ?_⟩
    rw [hrun, List.set_set]
    have harith : ctr + 1 + (rest.length : Int) =
        ctr + (((k :: rest).length : Nat) : Int) := by
      simp [List.length_cons]
      ring
    rw [harith]
    rfl

/-- `allKeysOK` reads only the buckets of the state. -/
theorem allKeysOK_congr (s s2 : MState) (h : s.buckets = s2.buckets) :
    allKeysOK s = allKeysOK s2 := by
  unfold allKeysOK mLookup
  rw [h]

/-! ### Lock-trace lemmas -/

theorem acqOrder_append (t1 t2 : List LockEv) :
    acqOrder (t1 ++ t2) = acqOrder t1 ++ acqOrder t2 :=
  List.filterMap_append t1 t2 _

theorem acqOrder_map_acq (l : List Nat) :
    acqOrder (l.map LockEv.acq) = l := by
  induction l with
  | nil => rfl
  | cons x xs ih =>
    unfold acqOrder at ih ⊢
    rw [List.map_cons, List.filterMap_cons]
    simp [ih]

theorem acqOrder_map_rel (l : List Nat) :
    acqOrder (l.map LockEv.rel) = [] := by
  induction l with
  | nil => rfl
  | cons x xs ih =>
    unfold acqOrder at ih ⊢
    rw [List.map_cons, List.filterMap_cons]
    simp [ih]

theorem heldAfter_append (t1 t2 : List LockEv) :
    heldAfter (t1 ++ t2) =
      t2.foldl (fun held e =>
        match e with
        | LockEv.acq i => held ++ [i]
        | LockEv.rel i => held.erase i) (heldAfter t1) :=
  List.foldl_append _ _ _ _

theorem foldl_acq_acc (l acc : List Nat) :
    (l.map LockEv.acq).foldl (fun held e =>
      match e with
      | LockEv.acq i => held ++ [i]
      | LockEv.rel i => held.erase i) acc = acc ++ l := by
  induction l generalizing acc with
  | nil => simp
  | cons x xs ih => simp [ih]

theorem heldAfter_acqs (l : List Nat) :
    heldAfter (l.map LockEv.acq) = l := by
  unfold heldAfter
  rw [foldl_acq_acc]
  simp

theorem foldl_rel_acc (l acc : List Nat) :
    (l.map LockEv.rel).foldl (fun held e =>
      match e with
      | LockEv.acq i => held ++ [i]
      | LockEv.rel i => held.erase i) acc =
      l.foldl (fun held i => held.erase i) acc := by
  induction l generalizing acc with
  | nil => rfl
  | cons x xs ih => simp [ih]

theorem foldl_erase_self (l : List Nat) :
    l.foldl (fun held i => held.erase i) l = [] := by
  induction l with
  | nil => rfl
  | cons x xs ih => simpa [List.erase_cons_head] using ih

theorem heldAfter_iter_all (volume : Nat) :
    heldAfter ((iterLockTrace volume).take volume) = List.range volume := by
  unfold iterLockTrace
  rw [List.take_left' (by simp)]
  exact heldAfter_acqs (List.range volume)

theorem heldAfter_iter_end (volume : Nat) :
    heldAfter (iterLockTrace volume) = [] := by
  unfold iterLockTrace
  rw [heldAfter_append, heldAfter_acqs, foldl_rel_acc]
  exact foldl_erase_self (List.range volume)

theorem clearLockTrace_succ (v : Nat) :
    clearLockTrace (v + 1) =
      clearLockTrace v ++ [LockEv.acq v, LockEv.rel v] := by
  unfold clearLockTrace
  rw [List.range_succ]
  simp

theorem heldAfter_clear_end (volume : Nat) :
    heldAfter (clearLockTrace volume) = [] := by
  induction volume with
  | zero => rfl
  | succ m ih =>
    rw [clearLockTrace_succ, heldAfter_append, ih]
    simp [List.erase_cons_head]

theorem heldAfter_clear_take (volume n : Nat) :
    (heldAfter ((clearLockTrace volume).take n)).length ≤ 1 := by
  induction volume generalizing n with
  | zero =>
    simp [clearLockTrace, heldAfter]
  | succ m ih =>
    rw [clearLockTrace_succ, List.take_append_eq_append_take]
    rcases le_or_lt n (clearLockTrace m).length with hn | hn
    · rw [Nat.sub_eq_zero_of_le hn]
      simpa using ih n
    · rw [List.take_of_length_le (Nat.le_of_lt hn), heldAfter_append,
        heldAfter_clear_end]
      rcases Nat.lt_or_ge (n - (clearLockTrace m).length) 2 with hd | hd
      · have hd1 : n - (clearLockTrace m).length = 1 := by omega
        rw [hd1]
        simp
      · rw [List.take_of_length_le (by simpa using hd)]
        simp [List.erase_cons_head]

theorem acqOrder_clear (volume : Nat) :
    acqOrder (clearLockTrace volume) = List.range volume := by
  induction volume with
  | zero => rfl
  | succ m ih =>
    rw [clearLockTrace_succ, acqOrder_append, ih, List.range_succ]
    rfl

/- smoke tests (spec §8 example: volume = 2, three keys, ≥ 1 collision) -/

example : tABC.getitem kA = some 1 ∧ tABC.getitem kB = some 2 ∧
    tABC.getitem kC = some 3 ∧ tABC.lenT = 3 ∧ WF tABC := by decide

example : (tABC.delitem kA).map (fun t => t.lenT) = some 2 := by decide

example : tABC.getitem ⟨5, 5⟩ = none := by decide

example : tABC.clearAll.lenT = 0 ∧ tABC.clearAll.containsKey kA = false := by
  decide

/-! ## Claim theorems -/

/-- C1: after any sequence of `set` calls with distinct keys on a fresh
table, `get` returns each key's most recently set value; `set` on a
present key overwrites in place (bucket keys and `size` unchanged) and
`set` on an absent key appends the entry and increments the counter. -/
theorem C1_set_get :
    (∀ (v : Int) (ps : List (Key × Nat)) (k : Key) (val : Nat),
      0 < v → (ps.map Prod.fst).Nodup → (k, val) ∈ ps →
      (setMany (mkHashTable Nat v) ps).getitem k = some val) ∧
    (∀ (t : HashTable Nat) (k : Key) (val : Nat), WF t →
      t.containsKey k = true →
      ((t.setitem k val).buckets.getD (t.hashIdx k).toNat []).map Prod.fst =
        (t.buckets.getD (t.hashIdx k).toNat []).map Prod.fst ∧
      (t.setitem k val).getitem k = some val ∧
      (t.setitem k val).size = t.size) ∧
    (∀ (t : HashTable Nat) (k : Key) (val : Nat), WF t →
      t.containsKey k = false →
      (t.setitem k val).buckets.getD (t.hashIdx k).toNat [] =
        t.buckets.getD (t.hashIdx k).toNat [] ++ [(k, val)] ∧
      (t.setitem k val).size = t.size + 1) := by
  refine ⟨?_, ?_, ?_⟩
  · intro v ps k val hv hnd hmem
    exact getitem_setMany_mem (mkHashTable Nat v) ps k val
      (WF_mkHashTable v hv) hnd hmem
  · intro t k val hwf hcon
    have hidx : (t.hashIdx k).toNat < t.buckets.length := by
      rw [hwf.2.1]
      exact hashIdx_toNat_lt t k hwf.1
    rcases hc : bucketOverwrite k val (t.buckets.getD (t.hashIdx k).toNat [])
      with _ | b2
    · have := (bucketOverwrite_eq_none_iff k val _).mp hc
      rw [HashTable.containsKey] at hcon
      rw [hcon] at this
      cases this
    · refine ⟨?_, getitem_setitem_self t k val hwf,
        setitem_size_overwrite t k val hcon⟩
      rw [setitem_of_found t k val b2 hc]
      show ((t.buckets.set (t.hashIdx k).toNat b2).getD
          (t.hashIdx k).toNat []).map Prod.fst = _
      rw [getD_set_self _ _ _ _ hidx]
      exact bucketOverwrite_some_keys k val _ b2 hc
  · intro t k val hwf habs
    have hidx : (t.hashIdx k).toNat < t.buckets.length := by
      rw [hwf.2.1]
      exact hashIdx_toNat_lt t k hwf.1
    have hc : bucketOverwrite k val
        (t.buckets.getD (t.hashIdx k).toNat []) = none :=
      (bucketOverwrite_eq_none_iff k val _).mpr habs
    refine ⟨?_, setitem_size_new t k val habs⟩
    rw [setitem_of_absent t k val hc]
    show (t.buckets.set (t.hashIdx k).toNat
        ((t.buckets.getD (t.hashIdx k).toNat []) ++ [(k, val)])).getD
          (t.hashIdx k).toNat [] = _
    rw [getD_set_self _ _ _ _ hidx]

theorem C1_set_get_witness :
    (setMany (mkHashTable Nat 2) [(kA, 1), (kB, 2), (kC, 3)]).getitem kC =
      some 3 ∧
    (tABC.setitem kC 9).size = tABC.size ∧
    (tABC.setitem ⟨5, 5⟩ 7).size = tABC.size + 1 :=
  ⟨C1_set_get.1 2 [(kA, 1), (kB, 2), (kC, 3)] kC 3 (by decide) (by decide)
    (by decide),
   (C1_set_get.2.1 tABC kC 9 (by decide) (by decide)).2.2,
   (C1_set_get.2.2 tABC ⟨5, 5⟩ 7 (by decide) (by decide)).2⟩

/-- C2: after construction and after every operation, the `size` counter
equals the number of distinct live keys and the sum of all bucket
lengths; a new key raises it by 1, an overwrite leaves it unchanged, a
delete lowers it by 1 and `clear` resets it to 0, with well-formedness
preserved throughout. -/
theorem C2_counter_invariant :
    (∀ v : Int, 0 < v →
      WF (mkHashTable Nat v) ∧ (mkHashTable Nat v).size = 0) ∧
    (∀ (t : HashTable Nat) (k : Key) (val : Nat), WF t →
      WF (t.setitem k val) ∧
      (t.containsKey k = true → (t.setitem k val).size = t.size) ∧
      (t.containsKey k = false → (t.setitem k val).size = t.size + 1)) ∧
    (∀ (t t2 : HashTable Nat) (k : Key), WF t → t.delitem k = some t2 →
      WF t2 ∧ t2.size = t.size - 1) ∧
    (∀ t : HashTable Nat, WF t → WF t.clearAll ∧ t.clearAll.size = 0) ∧
    (∀ t : HashTable Nat, WF t →
      t.size = (t.iterKeys.length : Int) ∧ t.iterKeys.Nodup ∧
      t.size = (sumLens t.buckets : Int)) := by
  refine ⟨?_, ?_, ?_, ?_, ?_⟩
  · intro v hv
    exact ⟨WF_mkHashTable v hv, rfl⟩
  · intro t k val hwf
    exact ⟨WF_setitem t k val hwf,
      fun h => setitem_size_overwrite t k val h,
      fun h => setitem_size_new t k val h⟩
  · intro t t2 k hwf hdel
    exact ⟨WF_delitem t t2 k hwf hdel, delitem_size t t2 k hdel⟩
  · intro t hwf
    exact ⟨WF_clearAll t hwf, clearAll_size t⟩
  · intro t hwf
    refine ⟨?_, iterKeys_nodup t hwf, hwf.2.2.1⟩
    rw [iterKeys_length]
    exact hwf.2.2.1

theorem C2_counter_invariant_witness :
    (WF (mkHashTable Nat 8) ∧ (mkHashTable Nat 8).size = 0) ∧
    WF (tABC.setitem kA 5) ∧ (tABC.setitem kA 5).size = tABC.size ∧
    (WF (⟨2, 2, [[(kC, 3)], [(kB, 2)]]⟩ : HashTable Nat) ∧
      (⟨2, 2, [[(kC, 3)], [(kB, 2)]]⟩ : HashTable Nat).size =
        tABC.size - 1) ∧
    tABC.clearAll.size = 0 ∧
    tABC.size = (tABC.iterKeys.length : Int) :=
  ⟨C2_counter_invariant.1 8 (by decide),
   (C2_counter_invariant.2.1 tABC kA 5 (by decide)).1,
   (C2_counter_invariant.2.1 tABC kA 5 (by decide)).2.1 (by decide),
   C2_counter_invariant.2.2.1 tABC ⟨2, 2, [[(kC, 3)], [(kB, 2)]]⟩ kA
     (by decide) (by decide),
   (C2_counter_invariant.2.2.2.1 tABC (by decide)).2,
   (C2_counter_invariant.2.2.2.2 tABC (by decide)).1⟩

set_option maxRecDepth 20000 in
/-- C3: the code loses a counter update.  Two contexts insert 100 distinct
keys in total (keys 0–49 and 50–99, disjoint) into the default 8-bucket
table; under `lostSched` — a legal interleaving in which context 0 fetches
the shared counter, context 1 then completes an insert into a different
bucket, and context 0 stores back its stale value — both programs run to
completion, every key is retrievable with its correct value and the
buckets hold 100 entries, yet `length()` reports 99, not the 100 the
claim (and the repository's own `test_multiprocess_access`) requires.
The increment `self.size.value += 1` is a non-atomic read-modify-write
guarded only by the per-bucket lock, which differs between buckets. -/
theorem C3_lost_update :
    finalMState.counter = 99 ∧ allKeysOK finalMState = true ∧
    allDone finalMState = true ∧ sumLensN finalMState.buckets = 100 ∧
    (99 : Int) ≠ (100 : Int) := by
  have hsplit : lostSched = [0, 0, 0, 1, 1, 1, 1, 1, 0, 0] ++
      (List.replicate 245 0 ++ List.replicate 245 1) := by decide
  have h10 : runSched initMState [0, 0, 0, 1, 1, 1, 1, 1, 0, 0] =
      midMState := by decide
  obtain ⟨rg0, dd0, hA⟩ := run_seq keysTail0 midMState.buckets 1
    midMState.ctxs 0 0 true (by decide) (by decide) (by decide) (by decide)
    (by decide)
  obtain ⟨rg1, dd1, hB⟩ := run_seq keysTail1
    (seqInsert midMState.buckets keysTail0) 50
    (midMState.ctxs.set 0 ⟨[], rg0, dd0⟩) 1 0 true (by decide)
    (by rw [List.length_set]; decide)
    (by rw [getD_set_ne _ _ _ _ _ (by omega)]; rfl)
    (by decide) (by decide)
  have hA2 : runSched midMState (List.replicate 245 0) =
      ⟨seqInsert midMState.buckets keysTail0, 50, List.replicate 8 none,
       midMState.ctxs.set 0 ⟨[], rg0, dd0⟩⟩ := hA
  have hB2 : runSched (⟨seqInsert midMState.buckets keysTail0, 50,
      List.replicate 8 none,
      midMState.ctxs.set 0 ⟨[], rg0, dd0⟩⟩ : MState)
      (List.replicate 245 1) =
      ⟨seqInsert (seqInsert midMState.buckets keysTail0) keysTail1, 99,
       List.replicate 8 none,
       (midMState.ctxs.set 0 ⟨[], rg0, dd0⟩).set 1 ⟨[], rg1, dd1⟩⟩ := hB
  have hfin : finalMState =
      ⟨seqInsert (seqInsert midMState.buckets keysTail0) keysTail1, 99,
       List.replicate 8 none,
       (midMState.ctxs.set 0 ⟨[], rg0, dd0⟩).set 1 ⟨[], rg1, dd1⟩⟩ := by
    show runSched initMState lostSched = _
    rw [hsplit, runSched_append, h10, runSched_append, hA2, hB2]
  have hbuck : finalMState.buckets =
      seqInsert (seqInsert midMState.buckets keysTail0) keysTail1 := by
    rw [hfin]
  refine ⟨by rw [hfin], ?_, by rw [hfin]; rfl, by rw [hbuck]; decide,
    by decide⟩
  rw [allKeysOK_congr finalMState
    ⟨seqInsert (seqInsert midMState.buckets keysTail0) keysTail1, 0, [], []⟩
    hbuck]
  decide

/-- C4: `get` and `delete` fail exactly when the key is absent, and a
failing `delete` leaves the caller's table untouched (the source raises
before any mutation). -/
theorem C4_keynotfound :
    ∀ (t : HashTable Nat) (k : Key),
      (t.getitem k = none ↔ t.containsKey k = false) ∧
      (t.delitem k = none ↔ t.containsKey k = false) ∧
      (t.containsKey k = false → delRun t k = t) := by
  intro t k
  refine ⟨getitem_eq_none_iff t k, delitem_eq_none_iff t k, ?_⟩
  intro h
  unfold delRun
  rw [(delitem_eq_none_iff t k).mpr h]
  rfl

theorem C4_keynotfound_witness :
    tABC.getitem ⟨5, 5⟩ = none ∧ delRun tABC ⟨5, 5⟩ = tABC :=
  ⟨(C4_keynotfound tABC ⟨5, 5⟩).1.mpr (by decide),
   (C4_keynotfound tABC ⟨5, 5⟩).2.2 (by decide)⟩

/-- C5 counterexample: the claim says construction with `volume ≤ 0` fails
with `InvalidConfiguration`; in the source neither constructor validates
`volume`, so `construct 0` succeeds (returning a bucketless table), while
the spec-modelled validating constructor rejects it. -/
theorem C5_counterexample :
    construct 0 = some (mkHashTable Nat 0) ∧ constructSpec 0 = none ∧
    construct 0 ≠ constructSpec 0 := by
  refine ⟨rfl, rfl, by decide⟩

/-- C5 amended: `construct volume` with `volume > 0` returns an empty
well-formed table with exactly `volume` buckets and counter 0; but
`volume ≤ 0` is not rejected — construction always succeeds, with
`max(volume, 0)` buckets, and no `InvalidConfiguration` error exists in
the code (misuse only surfaces later, when `_hash` divides by volume). -/
theorem C5_construct :
    ∀ v : Int,
      (construct v).isSome = true ∧
      (0 < v → construct v = some (mkHashTable Nat v) ∧
        WF (mkHashTable Nat v) ∧ (mkHashTable Nat v).size = 0 ∧
        (mkHashTable Nat v).volume = v ∧
        (mkHashTable Nat v).buckets.length = v.toNat ∧
        ∀ b ∈ (mkHashTable Nat v).buckets, b = []) := by
  intro v
  refine ⟨rfl, fun hv => ⟨rfl, WF_mkHashTable v hv, rfl, rfl, ?_, ?_⟩⟩
  · show (List.replicate v.toNat ([] : List (Key × Nat))).length = v.toNat
    simp
  · intro b hb
    exact List.eq_of_mem_replicate hb

theorem C5_construct_witness :
    (construct 8).isSome = true ∧ 0 < (8 : Int) ∧
    construct 8 = some (mkHashTable Nat 8) ∧
    (mkHashTable Nat 8).buckets.length = (8 : Int).toNat :=
  ⟨(C5_construct 8).1, by decide, ((C5_construct 8).2 (by decide)).1,
   ((C5_construct 8).2 (by decide)).2.2.2.2.1⟩

/-- C6 counterexample: at `volume = 2`, `clear` never holds more than one
bucket lock at any point of its trace (its maximum simultaneous hold is
1, not 2), while `__iter__` does reach a point where both locks are held
— so the claim that *both* operations hold all locks simultaneously is
false for `clear`. -/
theorem C6_counterexample :
    maxHeldCount (clearLockTrace 2) = 1 ∧
    maxHeldCount (iterLockTrace 2) = 2 ∧ (1 : Nat) ≠ 2 := by
  refine ⟨by decide, by decide, by decide⟩

/-- C6 amended: `__iter__` acquires every bucket lock in ascending index
order and, after the acquisition phase, holds all `volume` locks
simultaneously while yielding, releasing them all at the end — a
full-table serialization point.  `clear`, by contrast, also visits the
locks in ascending order but acquires and releases each bucket's lock
individually, never holding more than one at a time (and resets the
counter only after all locks are released), so it is not a full-table
serialization point and single-key operations on other buckets can
interleave with it. -/
theorem C6_lock_discipline :
    ∀ volume : Nat,
      acqOrder (iterLockTrace volume) = List.range volume ∧
      heldAfter ((iterLockTrace volume).take volume) = List.range volume ∧
      heldAfter (iterLockTrace volume) = [] ∧
      acqOrder (clearLockTrace volume) = List.range volume ∧
      (∀ n : Nat, (heldAfter ((clearLockTrace volume).take n)).length ≤ 1) ∧
      (∀ n : Nat, 2 ≤ volume →
        heldAfter ((clearLockTrace volume).take n) ≠ List.range volume) ∧
      heldAfter (clearLockTrace volume) = [] := by
  intro volume
  refine ⟨?_, heldAfter_iter_all volume, heldAfter_iter_end volume,
    acqOrder_clear volume, heldAfter_clear_take volume, ?_,
    heldAfter_clear_end volume⟩
  · unfold iterLockTrace
    rw [acqOrder_append, acqOrder_map_acq, acqOrder_map_rel]
    simp
  · intro n h2 heq
    have hle := heldAfter_clear_take volume n
    rw [heq] at hle
    simp only [List.length_range] at hle
    omega

theorem C6_lock_discipline_witness :
    2 ≤ 2 ∧
    heldAfter ((clearLockTrace 2).take 1) ≠ List.range 2 ∧
    heldAfter ((iterLockTrace 2).take 2) = List.range 2 :=
  ⟨by decide, (C6_lock_discipline 2).2.2.2.2.2.1 1 (by decide),
   (C6_lock_discipline 2).2.1⟩

/-- C7: on a quiescent well-formed table, iteration yields the keys in
bucket-then-chain order, with no duplicates, as many keys as `length()`
reports, and a key appears in it exactly when `contains` finds it. -/
theorem C7_iterate :
    ∀ t : HashTable Nat, WF t →
      t.iterKeys = t.buckets.flatMap (fun b => b.map Prod.fst) ∧
      t.iterKeys.Nodup ∧
      (t.iterKeys.length : Int) = t.lenT ∧
      ∀ k : Key, k ∈ t.iterKeys ↔ t.containsKey k = true := by
  intro t hwf
  refine ⟨rfl, iterKeys_nodup t hwf, ?_, iterKeys_mem_iff t hwf⟩
  rw [iterKeys_length]
  exact hwf.2.2.1.symm

theorem C7_iterate_witness :
    tABC.iterKeys.Nodup ∧ (tABC.iterKeys.length : Int) = tABC.lenT ∧
    (kA ∈ tABC.iterKeys ↔ tABC.containsKey kA = true) :=
  ⟨(C7_iterate tABC (by decide)).2.1, (C7_iterate tABC (by decide)).2.2.1,
   (C7_iterate tABC (by decide)).2.2.2 kA⟩

/-- C8: after `clear`, every bucket is empty, `length()` reports 0, and
`contains` is false for every key, including all previously present. -/
theorem C8_clear :
    ∀ t : HashTable Nat, WF t →
      (∀ b ∈ t.clearAll.buckets, b = []) ∧
      t.clearAll.lenT = 0 ∧
      ∀ k : Key, t.clearAll.containsKey k = false := by
  intro t hwf
  exact ⟨clearAll_bucket_empty t hwf.2.1, clearAll_size t,
    fun k => clearAll_contains t hwf.2.1 k⟩

theorem C8_clear_witness :
    tABC.clearAll.lenT = 0 ∧ tABC.clearAll.containsKey kA = false :=
  ⟨(C8_clear tABC (by decide)).2.1, (C8_clear tABC (by decide)).2.2 kA⟩

/-- C9: for a positive volume the bucket index `hash(key) % volume` lies
in `[0, volume)`; it is a pure function of the key's hash and the volume
(identical across tables of equal volume, hence identical across calls);
and whenever the table keeps `volume` buckets, the index is in bounds for
every bucket access. -/
theorem C9_hash :
    ∀ (t : HashTable Nat) (k : Key), 0 < t.volume →
      (0 ≤ t.hashIdx k ∧ t.hashIdx k < t.volume) ∧
      (t.buckets.length = t.volume.toNat →
        (t.hashIdx k).toNat < t.buckets.length) ∧
      (∀ t2 : HashTable Nat, t2.volume = t.volume →
        t2.hashIdx k = t.hashIdx k) ∧
      t.hashIdx k = pyMod (pyHash k) t.volume := by
  intro t k hv
  refine ⟨⟨hashIdx_nonneg t k hv, hashIdx_lt_volume t k hv⟩, ?_,
    fun t2 h => hashIdx_congr t t2 h k, rfl⟩
  intro hlen
  rw [hlen]
  exact hashIdx_toNat_lt t k hv

theorem C9_hash_witness :
    (0 ≤ tABC.hashIdx kC ∧ tABC.hashIdx kC < tABC.volume) ∧
    (tABC.hashIdx kC).toNat < tABC.buckets.length :=
  ⟨(C9_hash tABC kC (by decide)).1,
   (C9_hash tABC kC (by decide)).2.1 (by decide)⟩

/-- C10: a `set` of key `k`, and a successful or failing `delete` of `k`,
leave every bucket other than the one at `hash(k) % volume` unchanged and
leave the volume unchanged (`get` and `contains` are modelled as pure
readers and change no state at all). -/
theorem C10_frame :
    ∀ (t : HashTable Nat) (k : Key) (v : Nat) (j : Nat),
      j ≠ (t.hashIdx k).toNat →
      ((t.setitem k v).buckets.getD j [] = t.buckets.getD j [] ∧
        (t.setitem k v).volume = t.volume) ∧
      (∀ t2 : HashTable Nat, t.delitem k = some t2 →
        t2.buckets.getD j [] = t.buckets.getD j [] ∧
        t2.volume = t.volume) ∧
      (t.delitem k = none → delRun t k = t) := by
  intro t k v j hj
  refine ⟨⟨?_, setitem_volume t k v⟩, ?_, ?_⟩
  · rcases hc : bucketOverwrite k v (t.buckets.getD (t.hashIdx k).toNat [])
      with _ | b2
    · rw [setitem_of_absent t k v hc]
      show (t.buckets.set (t.hashIdx k).toNat
          ((t.buckets.getD (t.hashIdx k).toNat []) ++ [(k, v)])).getD j [] = _
      exact getD_set_ne _ _ _ _ _ (Ne.symm hj)
    · rw [setitem_of_found t k v b2 hc]
      show (t.buckets.set (t.hashIdx k).toNat b2).getD j [] = _
      exact getD_set_ne _ _ _ _ _ (Ne.symm hj)
  · intro t2 hdel
    obtain ⟨b2, hc, rfl⟩ := delitem_inv t t2 k hdel
    exact ⟨getD_set_ne _ _ _ _ _ (Ne.symm hj), rfl⟩
  · intro h
    unfold delRun
    rw [h]
    rfl

theorem C10_frame_witness :
    (1 : Nat) ≠ (tABC.hashIdx kA).toNat ∧
    (tABC.setitem kA 7).buckets.getD 1 [] = tABC.buckets.getD 1 [] ∧
    (tABC.setitem kA 7).volume = tABC.volume :=
  ⟨by decide, (C10_frame tABC kA 7 1 (by decide)).1.1,
   (C10_frame tABC kA 7 1 (by decide)).1.2⟩
